import Mathlib

/-!
Verification of the vid2subs core: sentence segmentation, subtitle building,
the two serializers (SRT and ASS) and the three translation backends
(remote batch, local batch model, multi-stage contextual).

Modelling conventions:
* Python `float` seconds are modelled as exact rationals (`ℚ`); `round` is
  modelled by `pyRound`, Python's round-half-to-even.
* Python strings are Lean `String`s; `str.strip()` is `pyStrip` (ASCII
  whitespace), `len` is `String.length` (code points), `" ".flatten` is
  `joinWith " "`, `split("\n")` is `splitNl`.
* The environment switch `VID2SUBS_STRIP_TRAILING_PUNCT` is threaded as an
  explicit boolean parameter (`false` is the documented default).
* Network and model calls are oracle parameters: a backend definition takes a
  function standing for the external service and is otherwise a direct
  translation of the Python control flow.  Worker pools write results
  positionally into a pre-sized container, so the sequential merge order used
  here produces the same result array as the pooled path.
-/

/-- Python `str.strip()` on ASCII whitespace, defined on the character list so
that standard list lemmas apply. -/
def pyStrip (s : String) : String :=
  ⟨((s.data.dropWhile Char.isWhitespace).reverse.dropWhile Char.isWhitespace).reverse⟩

/-- Python `sep.flatten(parts)`. -/
def joinWith (sep : String) : List String → String
  | [] => ""
  | [t] => t
  | t :: rest => t ++ sep ++ joinWith sep rest

/-- Last character of a string, with a default for the empty string
(Python `s[-1]`, used only behind non-emptiness guards). -/
def lastCharD (s : String) (d : Char) : Char :=
  s.data.getLastD d

/-- Sentence-terminal punctuation, the characters of the source string
`"。.!！？?!…"` in order. -/
def sentenceEndPunct : List Char :=
  ['。', '.', '!', '！', '？', '?', '!', '…']

/-- Breakable punctuation, the characters of the source string
`"。.!！？?!…，,;；：:、"` in order. -/
def breakPunct : List Char :=
  ['。', '.', '!', '！', '？', '?', '!', '…', '，', ',', ';', '；', '：', ':', '、']

/-- Quote/bracket characters excluded from breaking, the characters of the
source string; the ASCII double and single quote are written by code point. -/
def nonBreakPunct : List Char :=
  ['“', '”', '‘', '’', Char.ofNat 34, Char.ofNat 39, '(', ')', '（', '）',
   '《', '》', '【', '】', '「', '」', '『', '』', '‹', '›']

/-- Does the trimmed token end in a sentence-terminal punctuation character
(`_is_sentence_end_token`)? -/
def isSentenceEndToken (token : String) : Bool :=
  let stripped := pyStrip token
  if stripped.data.isEmpty then false
  else sentenceEndPunct.contains (lastCharD stripped 'A')

/-- Does the trimmed token end in a breakable, non-quote punctuation character
(the condition of `_update_last_breakable_index`)? -/
def isBreakableToken (token : String) : Bool :=
  let stripped := pyStrip token
  if stripped.data.isEmpty then false
  else
    let c := lastCharD stripped 'A'
    breakPunct.contains c && !(nonBreakPunct.contains c)

/-- One step of the trailing-punctuation stripping loop, on the reversed
character list: drop trailing whitespace, then drop one strippable
punctuation character and repeat. -/
def stripTrailGo (r : List Char) : List Char :=
  let r1 := r.dropWhile Char.isWhitespace
  match h : r1 with
  | [] => []
  | c :: rest =>
    if breakPunct.contains c && !(nonBreakPunct.contains c) then stripTrailGo rest
    else r1
termination_by r.length
decreasing_by
  have h1 : r1.length ≤ r.length := by
    simpa using List.Sublist.length_le (List.dropWhile_sublist (l := r) (p := Char.isWhitespace))
  rw [h] at h1
  simp at h1
  omega

/-- The source's `_strip_trailing_punct_if_enabled`, with the environment
switch `VID2SUBS_STRIP_TRAILING_PUNCT` as an explicit boolean. -/
def stripTrailingPunctIfEnabled (enabled : Bool) (text : String) : String :=
  if text = "" then text
  else if enabled then ⟨(stripTrailGo text.data.reverse).reverse⟩
  else text

/-- A transcribed word with its time span (`vid2subs.asr.Word`); seconds are
modelled as rationals. -/
structure Word where
  text : String
  start : ℚ
  stop : ℚ
deriving DecidableEq

/-- A sentence assembled from consecutive words
(`vid2subs.segmentation.Sentence`). -/
structure Sentence where
  text : String
  start : ℚ
  stop : ℚ
  words : List Word
deriving DecidableEq

/-- Index of the last word of the buffer whose trimmed text ends in breakable
punctuation, `none` standing for the source's `-1` sentinel.  The source keeps
this value incrementally (`_update_last_breakable_index`) and recomputes it
after each flush; `lastBreakIdx_concat` below shows the incremental update
law, so the two presentations agree. -/
def lastBreakIdx : List Word → Option Nat
  | [] => none
  | w :: ws =>
    match lastBreakIdx ws with
    | some i => some (i + 1)
    | none => if isBreakableToken w.text then some 0 else none

/-- Join the buffer's word texts with single spaces, as `" ".flatten` does. -/
def joinTexts (ws : List Word) : String :=
  joinWith " " (ws.map Word.text)

/-- The sentence text a buffer slice would produce: join, strip, and
optionally strip trailing punctuation. -/
def sliceText (strip : Bool) (ws : List Word) : String :=
  stripTrailingPunctIfEnabled strip (pyStrip (joinTexts ws))

/-- The source's `_flush_up_to`: emit the buffer prefix up to and including
`index` as a sentence (skipping emission when its text is empty) and keep the
remainder.  The source clamps an out-of-range index to the last position;
negative indices cannot arise at the call sites. -/
def flushUpTo (strip : Bool) (buf : List Word) (index : Nat) :
    List Sentence × List Word :=
  if buf.isEmpty then ([], [])
  else
    let i := if index ≥ buf.length then buf.length - 1 else index
    let wordsSlice := buf.take (i + 1)
    let text := sliceText strip wordsSlice
    let emitted :=
      if text = "" then []
      else
        [{ text := text
           start := (wordsSlice.headD ⟨"", 0, 0⟩).start
           stop := (wordsSlice.getLastD ⟨"", 0, 0⟩).stop
           words := wordsSlice }]
    (emitted, buf.drop (i + 1))

/-- The per-word loop of `words_to_sentences`: append the word, flush on
sentence-terminal punctuation or on length overflow (preferring the last
breakable position), and flush the remaining buffer after the last word. -/
def segGo (strip : Bool) (maxChars : Nat) : List Word → List Word → List Sentence
  | buf, [] => (flushUpTo strip buf (buf.length - 1)).1
  | buf, w :: rest =>
    let buf1 := buf ++ [w]
    let step :=
      if isSentenceEndToken w.text then flushUpTo strip buf1 (buf1.length - 1)
      else if (joinTexts buf1).length > maxChars then
        match lastBreakIdx buf1 with
        | some i => flushUpTo strip buf1 i
        | none => flushUpTo strip buf1 (buf1.length - 1)
      else ([], buf1)
    step.1 ++ segGo strip maxChars step.2 rest

/-- The source's `words_to_sentences`; `maxSilence` is accepted but unused by
the breaking policy, exactly as in the source. -/
def words_to_sentences (strip : Bool) (words : List Word)
    (maxSilence : ℚ) (maxChars : Nat) : List Sentence :=
  if words.isEmpty then [] else segGo strip maxChars [] words

/-- Python's `round` to an integer: round half to even. -/
def pyRound (q : ℚ) : ℤ :=
  let f := ⌊q⌋
  let r := q - f
  if r < 1 / 2 then f
  else if 1 / 2 < r then f + 1
  else if f % 2 = 0 then f else f + 1

/-- Left-pad the decimal representation of `n` with zeros to width `w`
(Python `f"{n:0wd}"` for non-negative `n`). -/
def padNum (w : Nat) (n : Nat) : String :=
  let s := toString n
  if s.length < w then ⟨List.replicate (w - s.length) '0'⟩ ++ s else s

/-- The SRT timestamp formatter `_format_timestamp`: clamp negatives to zero,
round to milliseconds, render `HH:MM:SS,mmm`. -/
def _format_timestamp (seconds : ℚ) : String :=
  let s0 := if seconds < 0 then (0 : ℚ) else seconds
  let totalMs := (pyRound (s0 * 1000)).toNat
  let ms := totalMs % 1000
  let totalSeconds := totalMs / 1000
  let s := totalSeconds % 60
  let totalMinutes := totalSeconds / 60
  let m := totalMinutes % 60
  let h := totalMinutes / 60
  padNum 2 h ++ ":" ++ padNum 2 m ++ ":" ++ padNum 2 s ++ "," ++ padNum 3 ms

/-- The ASS timestamp formatter `_format_ass_timestamp`: clamp negatives to
zero, round to centiseconds, render `H:MM:SS.cc`. -/
def _format_ass_timestamp (seconds : ℚ) : String :=
  let s0 := if seconds < 0 then (0 : ℚ) else seconds
  let totalCs := (pyRound (s0 * 100)).toNat
  let cs := totalCs % 100
  let totalSeconds := totalCs / 100
  let s := totalSeconds % 60
  let totalMinutes := totalSeconds / 60
  let m := totalMinutes % 60
  let h := totalMinutes / 60
  padNum 1 h ++ ":" ++ padNum 2 m ++ ":" ++ padNum 2 s ++ "." ++ padNum 2 cs

/-- A subtitle block (`vid2subs.subtitles.SubtitleItem`); the index is kept as
a natural number (the builder assigns 1-based positions). -/
structure SubtitleItem where
  index : Nat
  start : ℚ
  stop : ℚ
  text : String
  translation : Option String := none
deriving DecidableEq

/-- The loop body of `sentences_to_subtitle_items`, carrying the 1-based
`enumerate` counter: skip sentences whose stripped text is empty, otherwise
emit an item numbered with the counter. -/
def buildItemsGo (idx : Nat) : List Sentence → List SubtitleItem
  | [] => []
  | sent :: rest =>
    let text := pyStrip sent.text
    if text.data.isEmpty then buildItemsGo (idx + 1) rest
    else
      { index := idx, start := sent.start, stop := sent.stop, text := text } ::
        buildItemsGo (idx + 1) rest

/-- The subtitle builder `sentences_to_subtitle_items`. -/
def sentences_to_subtitle_items (sentences : List Sentence) : List SubtitleItem :=
  buildItemsGo 1 sentences

/-- Python truthiness normalization `item.translation if item.translation else
None`: an absent or empty translation becomes `none`. -/
def normTranslation (item : SubtitleItem) : Option String :=
  match item.translation with
  | some t => if t = "" then none else some t
  | none => none

/-- The lines the SRT writer appends for one item: index line, timing line,
one or two text lines depending on the rendering mode, and a blank separator. -/
def srtBlock (bilingual translated_only : Bool) (item : SubtitleItem) : List String :=
  let startTs := _format_timestamp item.start
  let endTs := _format_timestamp item.stop
  let translation := normTranslation item
  [toString item.index, startTs ++ " --> " ++ endTs] ++
    (if translated_only then [translation.getD item.text]
     else
       match translation with
       | some tr => if bilingual then [item.text, tr] else [item.text]
       | none => [item.text]) ++ [""]

/-- The line list built by the loop of `subtitle_items_to_srt`, translated
directly from the per-item appends. -/
def srtLines (bilingual translated_only : Bool) : List SubtitleItem → List String
  | [] => []
  | item :: rest =>
    let startTs := _format_timestamp item.start
    let endTs := _format_timestamp item.stop
    let translation := normTranslation item
    [toString item.index, startTs ++ " --> " ++ endTs] ++
      (if translated_only then [translation.getD item.text]
       else
         match translation with
         | some tr => if bilingual then [item.text, tr] else [item.text]
         | none => [item.text]) ++ [""] ++ srtLines bilingual translated_only rest

/-- The full SRT text: joined lines, stripped, with a trailing newline. -/
def subtitle_items_to_srt (items : List SubtitleItem)
    (bilingual translated_only : Bool) : String :=
  pyStrip (joinWith "\n" (srtLines bilingual translated_only items)) ++ "\n"

/-- The display text the ASS writer selects for an item under the rendering
mode; in bilingual mode with a present, non-empty translation the two lines
are joined with the literal two-character sequence backslash-N. -/
def assDisplay (bilingual translated_only : Bool) (item : SubtitleItem) : String :=
  let translation := normTranslation item
  if translated_only then translation.getD item.text
  else
    match translation with
    | some tr => if bilingual then item.text ++ "\\N" ++ tr else item.text
    | none => item.text

/-- Replace one character by a replacement sequence throughout a character
list: the model of a single-character `str.replace` pass. -/
def charReplace (c : Char) (r : List Char) (s : List Char) : List Char :=
  s.flatMap fun x => if x = c then r else [x]

/-- The ASS escaping applied to the display text, three sequential `replace`
passes: double every backslash, then escape each curly brace. -/
def assEscape (s : String) : String :=
  ⟨charReplace '}' ['\\', '}']
    (charReplace '{' ['\\', '{']
      (charReplace '\\' ['\\', '\\'] s.data))⟩

/-- The dialogue event line the ASS writer emits for one item. -/
def assEventLine (bilingual translated_only : Bool) (item : SubtitleItem) : String :=
  "Dialogue: 0," ++ _format_ass_timestamp item.start ++ "," ++
    _format_ass_timestamp item.stop ++ ",Default,,0,0,0,," ++
    assEscape (assDisplay bilingual translated_only item)

/-- The event-line loop of `subtitle_items_to_ass`: an item whose selected
display text strips to empty is skipped before escaping. -/
def assEventLines (bilingual translated_only : Bool) : List SubtitleItem → List String
  | [] => []
  | item :: rest =>
    let display := assDisplay bilingual translated_only item
    if (pyStrip display).data.isEmpty then assEventLines bilingual translated_only rest
    else
      assEventLine bilingual translated_only item ::
        assEventLines bilingual translated_only rest

/-- The fixed ASS header of `subtitle_items_to_ass`. -/
def assHeaderLines (playResX playResY : Nat) : List String :=
  ["[Script Info]",
   "ScriptType: v4.00+",
   "PlayResX: " ++ toString playResX,
   "PlayResY: " ++ toString playResY,
   "ScaledBorderAndShadow: yes",
   "",
   "[V4+ Styles]",
   "Format: Name, Fontname, Fontsize, PrimaryColour, SecondaryColour, " ++
     "OutlineColour, BackColour, Bold, Italic, Underline, StrikeOut, " ++
     "ScaleX, ScaleY, Spacing, Angle, BorderStyle, Outline, Shadow, " ++
     "Alignment, MarginL, MarginR, MarginV, Encoding",
   "Style: Default,Arial,48,&H00FFFFFF,&H000000FF,&H00000000,&H64000000," ++
     "0,0,0,0,100,100,0,0,1,2,0,2,10,10,30,1",
   "",
   "[Events]",
   "Format: Layer, Start, End, Style, Name, MarginL, MarginR, MarginV, Effect, Text"]

/-- The full ASS text. -/
def subtitle_items_to_ass (items : List SubtitleItem)
    (bilingual translated_only : Bool) (playResX : Nat := 1920)
    (playResY : Nat := 1080) : String :=
  joinWith "\n"
    (assHeaderLines playResX playResY ++ assEventLines bilingual translated_only items) ++ "\n"

/-- Python `s.split("\n")` on the character list; an empty string yields
`[""]` and separators are kept as block boundaries. -/
def splitNlGo : List Char → List Char → List String
  | [], acc => [⟨acc⟩]
  | c :: rest, acc =>
    if c = '\n' then ⟨acc⟩ :: splitNlGo rest [] else splitNlGo rest (acc ++ [c])

/-- Python `s.split("\n")`. -/
def splitNl (s : String) : List String :=
  splitNlGo s.data []

/-- The remote call of `GoogleTranslator._translate_text`, abstracted over the
HTTP request/parse step `o` (which may fail); an empty or whitespace-only
input short-circuits to the empty string without a call. -/
def translateText (o : String → Except String String) (text : String) :
    Except String String :=
  if (pyStrip text).data.isEmpty then Except.ok "" else o text

/-- The grouping loop of `GoogleTranslator.translate_subtitles`: pack item
positions into contiguous groups whose accumulated text length stays within
the budget, never starting an empty group. -/
def googleGroupsGo (limit : Nat) : List SubtitleItem → Nat → List Nat → Nat →
    List (List Nat)
  | [], _, cur, _ => if cur.isEmpty then [] else [cur]
  | item :: rest, idx, cur, curLen =>
    let tLen := item.text.length
    if ¬cur.isEmpty ∧ curLen + tLen > limit then
      cur :: googleGroupsGo limit rest (idx + 1) [idx] tLen
    else googleGroupsGo limit rest (idx + 1) (cur ++ [idx]) (curLen + tLen)

/-- The groups of item positions the remote backend sends in one call each. -/
def googleGroups (limit : Nat) (items : List SubtitleItem) : List (List Nat) :=
  googleGroupsGo limit items 0 [] 0

/-- The source's `process_group`: join the group's texts with newlines,
translate the block, split it back; on a failed call or a line-count mismatch
return the original texts for the whole group. -/
def processGroup (o : String → Except String String) (items : List SubtitleItem)
    (g : List Nat) : List Nat × List String :=
  match translateText o
      (joinWith "\n" (g.map fun i => (items.getD i ⟨0, 0, 0, "", none⟩).text)) with
  | Except.error _ => (g, g.map fun i => (items.getD i ⟨0, 0, 0, "", none⟩).text)
  | Except.ok block =>
    if (splitNl block).length ≠ g.length then
      (g, g.map fun i => (items.getD i ⟨0, 0, 0, "", none⟩).text)
    else (g, (splitNl block).map pyStrip)

/-- Write one group's translations into the result list at the group's item
positions (`translations[i] = text`). -/
def writeGroup (acc : List String) (r : List Nat × List String) : List String :=
  (r.1.zip r.2).foldl (fun a p => a.set p.1 p.2) acc

/-- The source's `GoogleTranslator.translate_subtitles` over the call oracle `o`: the
result is pre-sized with empty strings and every group writes its entries
positionally, so the sequential merge below also models the pooled path. -/
def google_translate_subtitles (o : String → Except String String) (limit : Nat)
    (items : List SubtitleItem) : List String :=
  let translations := items.map fun _ => ""
  if items.isEmpty then translations
  else
    (googleGroups limit items).foldl
      (fun acc g => writeGroup acc (processGroup o items g)) translations

/-- The alias/preset table of `M2M100Translator._normalize_lang`. -/
def m2mLangMap : List (String × String) :=
  [("en-us", "en"), ("en-gb", "en"), ("en", "en"), ("zh", "zh"), ("zh-cn", "zh"),
   ("zh-hans", "zh"), ("zh-hant", "zh"), ("zh-tw", "zh")]

/-- The source's `M2M100Translator._normalize_lang`: lowercase, collapse the `EN`/`EU`
presets and regional variants to base codes. -/
def _normalize_lang (code : String) : String :=
  if code = "" then "en"
  else
    let raw := pyStrip code
    if raw = "" then "en"
    else if raw.toUpper = "EN" ∨ raw.toUpper = "EU" then "en"
    else
      let low : String := ⟨raw.toLower.data.map fun c => if c = '_' then '-' else c⟩
      (m2mLangMap.lookup low).getD low

/-- The source's `M2M100Translator.translate_subtitles` over the batch-model oracle `o`
(standing for `_translate_batch`'s tokenizer/model/decode step, whose outputs
the source strips): one batch call, then truncate or pad the returned list to
realign it with the input length. -/
def m2m_translate_subtitles (o : List String → String → String → List String)
    (items : List SubtitleItem) (source_lang target_lang : String) : List String :=
  let texts := items.map SubtitleItem.text
  if texts.isEmpty then []
  else
    let src := _normalize_lang source_lang
    let tgt := _normalize_lang target_lang
    let translations := (o texts src tgt).map pyStrip
    if translations.length > items.length then translations.take items.length
    else translations ++ List.replicate (items.length - translations.length) ""

/-- The kinds of chat-completion calls `LLMTranslator` issues. -/
inductive CallKind where
  | planShort
  | chunkSummary
  | globalPlan
  | translateBatch
deriving DecidableEq

/-- The external chat interface of `LLMTranslator`, one function per call
shape.  Each function stands for `_call_chat` together with the prompt
loading and payload/JSON handling around it: a `.error` is a fatal protocol
failure, an `.ok` carries the fields the source reads out of the parsed JSON
(with its `get(..., "")` defaults applied). -/
structure LLMOracle where
  planShort : String → String → List SubtitleItem → Except String (String × String)
  chunkSummary : String → String → Nat → List SubtitleItem → Except String String
  globalPlan : String → String → List (Nat × String) → Except String (String × String)
  translateBatch : String → String → String → List SubtitleItem →
    Except String (List (Option Nat × String))

/-- Greedy budget-bounded packing shared by `_summarize_chunks` and
`_translate_in_batches`: a new block starts when adding the next item would
push the running text length over the limit, and a block always receives at
least one item. -/
def packGo (limit : Nat) : List SubtitleItem → List SubtitleItem → Nat →
    List (List SubtitleItem)
  | [], cur, _ => if cur.isEmpty then [] else [cur]
  | item :: rest, cur, curLen =>
    let itemLen := item.text.length
    if ¬cur.isEmpty ∧ curLen + itemLen > limit then
      cur :: packGo limit rest [item] itemLen
    else packGo limit rest (cur ++ [item]) (curLen + itemLen)

/-- The source's `_total_text_length`: summed text lengths. -/
def totalTextLen (items : List SubtitleItem) : Nat :=
  (items.map fun item => item.text.length).sum

/-- Strip ASCII control characters (U+0000–U+001F and U+007F), the model of
`_control_chars_pattern.sub("", ...)`. -/
def stripControl (s : String) : String :=
  ⟨s.data.filter fun c => ¬(c.toNat ≤ 0x1F ∨ c.toNat = 0x7F)⟩

/-- The chunk-summary loop of `_summarize_chunks`, enumerating chunks from 1;
a failed call aborts immediately.  Returns the summaries (or the error) and
the log of issued calls. -/
def summarizeChunksGo (o : LLMOracle) (src tgt : String) :
    Nat → List (List SubtitleItem) →
    Except String (List (Nat × String)) × List CallKind
  | _, [] => (Except.ok [], [])
  | idx, c :: rest =>
    match o.chunkSummary src tgt idx c with
    | Except.error e => (Except.error e, [CallKind.chunkSummary])
    | Except.ok summary =>
      let r := summarizeChunksGo o src tgt (idx + 1) rest
      (r.1.map fun l => (idx, summary) :: l, CallKind.chunkSummary :: r.2)

/-- Insert the valid entries of one translation batch into the index→text
map, stripping control characters; entries without a usable integer index are
skipped, and later entries override earlier ones. -/
def applyEntries (d : Nat → Option String) :
    List (Option Nat × String) → Nat → Option String
  | [] => d
  | (none, _) :: rest => applyEntries d rest
  | (some i, t) :: rest =>
    applyEntries (fun k => if k = i then some (stripControl t) else d k) rest

/-- The batch loop of `_translate_in_batches` over the merged index→text map;
any call failure is fatal.  Returns the merged map (or the error) and the
call log. -/
def translateBatchesGo (o : LLMOracle) (src tgt prompt : String) :
    (Nat → Option String) → List (List SubtitleItem) →
    Except String (Nat → Option String) × List CallKind
  | d, [] => (Except.ok d, [])
  | d, batch :: rest =>
    match o.translateBatch src tgt prompt batch with
    | Except.error e => (Except.error e, [CallKind.translateBatch])
    | Except.ok entries =>
      let r := translateBatchesGo o src tgt prompt (applyEntries d entries) rest
      (r.1, CallKind.translateBatch :: r.2)

/-- The planning phase of `LLMTranslator.translate_subtitles`: one short-text
call when the total length is within `textLimit`, otherwise chunk summaries
followed by one global-plan call.  Returns the `(video_summary,
translation_prompt)` pair (or the fatal error) and the call log. -/
def llmPlanPhase (o : LLMOracle) (textLimit : Nat) (items : List SubtitleItem)
    (src tgt : String) : Except String (String × String) × List CallKind :=
  if totalTextLen items ≤ textLimit then
    match o.planShort src tgt items with
    | Except.error e => (Except.error e, [CallKind.planShort])
    | Except.ok vp => (Except.ok vp, [CallKind.planShort])
  else
    match summarizeChunksGo o src tgt 1 (packGo textLimit items [] 0) with
    | (Except.error e, log) => (Except.error e, log)
    | (Except.ok summaries, log) =>
      match o.globalPlan src tgt summaries with
      | Except.error e => (Except.error e, log ++ [CallKind.globalPlan])
      | Except.ok vp => (Except.ok vp, log ++ [CallKind.globalPlan])

/-- The source's `LLMTranslator.translate_subtitles` over the chat oracle: plan, then
batched translation merged into an index→text map, then assembly by stable
item index with an empty-string default.  The first component is the result
(or the fatal error), the second the log of issued calls. -/
def llmRun (o : LLMOracle) (textLimit translateLimit : Nat)
    (items : List SubtitleItem) (src tgt : String) :
    Except String (List String) × List CallKind :=
  if items.isEmpty then (Except.ok [], [])
  else
    match llmPlanPhase o textLimit items src tgt with
    | (Except.error e, log1) => (Except.error e, log1)
    | (Except.ok vp, log1) =>
      match translateBatchesGo o src tgt vp.2 (fun _ => none)
          (packGo translateLimit items [] 0) with
      | (Except.error e, log2) => (Except.error e, log1 ++ log2)
      | (Except.ok d, log2) =>
        (Except.ok (items.map fun item => (d item.index).getD ""), log1 ++ log2)

/-- The result component of the contextual backend. -/
def llm_translate_subtitles (o : LLMOracle) (textLimit translateLimit : Nat)
    (items : List SubtitleItem) (src tgt : String) : Except String (List String) :=
  (llmRun o textLimit translateLimit items src tgt).1

/-! Concrete inputs used to exercise the definitions. -/

/-- Two sentences, the first with empty text: input to the subtitle builder. -/
def twoSentences : List Sentence :=
  [⟨"", 0, 0, []⟩, ⟨"a", 0, 1, []⟩]

/-- An empty-text item followed by a one-character item. -/
def itemsEmptyFirst : List SubtitleItem :=
  [⟨1, 0, 1, "", none⟩, ⟨2, 1, 2, "a", none⟩]

/-- A remote oracle answering the two-line block `"X\nY"` to the joined
request of `itemsEmptyFirst`. -/
def googleOracleTwoLines : String → Except String String :=
  fun s => if s = "\na" then Except.ok "X\nY" else Except.ok ""

/-- Two items that split into two singleton groups under a budget of 2. -/
def itemsTwoGroups : List SubtitleItem :=
  [⟨1, 0, 1, "aa", none⟩, ⟨2, 1, 2, "bb", none⟩]

/-- A remote oracle answering a two-line block (a line-count mismatch for a
singleton group) to `"aa"` and a single line to everything else. -/
def googleOracleMismatch : String → Except String String :=
  fun s => if s = "aa" then Except.ok "x\ny" else Except.ok "YY"

/-- A contextual-backend oracle whose calls all succeed with empty content. -/
def llmOracleOk : LLMOracle :=
  ⟨fun _ _ _ => Except.ok ("", ""), fun _ _ _ _ => Except.ok "",
   fun _ _ _ => Except.ok ("", ""), fun _ _ _ _ => Except.ok []⟩

/-- A single short item. -/
def itemsShort : List SubtitleItem :=
  [⟨1, 0, 1, "hi", none⟩]

/-- Three items of six characters each: total length 18, chunk budget 10. -/
def itemsChunky : List SubtitleItem :=
  [⟨1, 0, 1, "aaaaaa", none⟩, ⟨2, 1, 2, "bbbbbb", none⟩, ⟨3, 2, 3, "cccccc", none⟩]

/-- A batch-model oracle echoing its inputs. -/
def m2mOracleEcho : List String → String → String → List String :=
  fun texts _ _ => texts

/-- A long unpunctuated word followed by a word ending in a period. -/
def wordsRunOnStop : List Word :=
  [⟨"aaaa", 0, 1⟩, ⟨"bbbb.", 1, 2⟩]

/-- A single harmless word. -/
def wordsPlain : List Word :=
  [⟨"aaaa", 0, 1⟩]

/-- An item with text and translation, for bilingual rendering. -/
def itemBilingual : SubtitleItem :=
  ⟨1, 0, 1, "a", some "b"⟩

/-! Lemmas and claim theorems. -/

theorem buildItemsGo_map_index (idx : Nat) (sents : List Sentence) :
    (buildItemsGo idx sents).map SubtitleItem.index =
      ((List.enumFrom idx sents).filter fun p => !(pyStrip p.2.text).data.isEmpty).map
        Prod.fst := by
  induction sents generalizing idx with
  | nil => simp [buildItemsGo]
  | cons s rest ih =>
    simp only [buildItemsGo, List.enumFrom, List.filter]
    by_cases h : (pyStrip s.text).data.isEmpty
    · simp [h, ih]
    · simp [h, ih]

theorem buildItemsGo_map_index_all (idx : Nat) (sents : List Sentence)
    (h : ∀ s ∈ sents, (pyStrip s.text).data.isEmpty = false) :
    (buildItemsGo idx sents).map SubtitleItem.index = List.range' idx sents.length := by
  induction sents generalizing idx with
  | nil => simp [buildItemsGo]
  | cons s rest ih =>
    have hs := h s (List.mem_cons_self s rest)
    simp only [buildItemsGo, hs]
    simp [List.range'_succ, ih _ fun x hx => h x (List.mem_cons_of_mem s hx)]

/-- C1 counterexample: on a list whose first sentence has empty trimmed text,
the builder emits a single item carrying index 2, not the gap-free sequence
starting at 1 that the claim requires. -/
theorem builder_index_gap :
    (sentences_to_subtitle_items twoSentences).map SubtitleItem.index = [2] ∧
    (sentences_to_subtitle_items twoSentences).map SubtitleItem.index ≠
      List.range' 1 (sentences_to_subtitle_items twoSentences).length := by
  decide

/-- C1 (amended): the builder assigns each emitted item the 1-based position
of its sentence in the input list, skipping sentences whose trimmed text is
empty — so skipped sentences leave gaps — and when no sentence is skipped the
indices are exactly 1, 2, …, n. -/
theorem sentences_to_subtitle_items_indices (sentences : List Sentence) :
    ((sentences_to_subtitle_items sentences).map SubtitleItem.index =
      ((List.enumFrom 1 sentences).filter fun p => !(pyStrip p.2.text).data.isEmpty).map
        Prod.fst) ∧
    ((∀ s ∈ sentences, (pyStrip s.text).data.isEmpty = false) →
      (sentences_to_subtitle_items sentences).map SubtitleItem.index =
        List.range' 1 sentences.length) :=
  ⟨buildItemsGo_map_index 1 sentences,
   fun h => buildItemsGo_map_index_all 1 sentences h⟩

/-- C1 witness: on a one-sentence list with non-empty trimmed text the
amended theorem yields indices `[1]`. -/
theorem sentences_to_subtitle_items_indices_witness :
    (sentences_to_subtitle_items [⟨"a", 0, 1, []⟩]).map SubtitleItem.index =
      List.range' 1 1 :=
  (sentences_to_subtitle_items_indices [⟨"a", 0, 1, []⟩]).2 (by decide)

theorem pyRound_intCast (n : ℤ) : pyRound (n : ℚ) = n := by
  unfold pyRound
  norm_num

theorem _format_timestamp_of_round (q : ℚ) (t : Nat) (h0 : ¬q < 0)
    (h : pyRound (q * 1000) = (t : ℤ)) :
    _format_timestamp q =
      padNum 2 (t / 1000 / 60 / 60) ++ ":" ++ padNum 2 (t / 1000 / 60 % 60) ++ ":" ++
        padNum 2 (t / 1000 % 60) ++ "," ++ padNum 3 (t % 1000) := by
  simp only [_format_timestamp, if_neg h0, h, Int.toNat_natCast]

theorem _format_ass_timestamp_of_round (q : ℚ) (t : Nat) (h0 : ¬q < 0)
    (h : pyRound (q * 100) = (t : ℤ)) :
    _format_ass_timestamp q =
      padNum 1 (t / 100 / 60 / 60) ++ ":" ++ padNum 2 (t / 100 / 60 % 60) ++ ":" ++
        padNum 2 (t / 100 % 60) ++ "." ++ padNum 2 (t % 100) := by
  simp only [_format_ass_timestamp, if_neg h0, h, Int.toNat_natCast]

theorem format_ass_zero : _format_ass_timestamp 0 = "0:00:00.00" := by
  rw [_format_ass_timestamp_of_round 0 0 (by norm_num)
    (by rw [show ((0 : ℚ) * 100) = ((0 : ℤ) : ℚ) by norm_num, pyRound_intCast]; norm_num)]
  decide

theorem format_ass_one : _format_ass_timestamp 1 = "0:00:01.00" := by
  rw [_format_ass_timestamp_of_round 1 100 (by norm_num)
    (by rw [show ((1 : ℚ) * 100) = ((100 : ℤ) : ℚ) by norm_num, pyRound_intCast]; norm_num)]
  decide

/-- C7: the claim is right about the intent, but the code escapes the display
text after joining the bilingual pair, so the single backslash of the `\N`
line-break sequence is doubled: the emitted dialogue text contains
backslash-backslash-N and an ASS renderer shows a literal `\N` instead of a
line break. -/
theorem ass_bilingual_separator_double_escaped :
    assDisplay true false itemBilingual = "a\\Nb" ∧
    assEscape (assDisplay true false itemBilingual) = "a\\\\Nb" ∧
    assEventLines true false [itemBilingual] =
      ["Dialogue: 0,0:00:00.00,0:00:01.00,Default,,0,0,0,,a\\\\Nb"] ∧
    ("a\\\\Nb" : String) ≠ "a\\Nb" := by
  refine ⟨by decide, by decide, ?_, by decide⟩
  show (if (pyStrip (assDisplay true false itemBilingual)).data.isEmpty then
      assEventLines true false [] else
      assEventLine true false itemBilingual :: assEventLines true false []) = _
  rw [if_neg (by decide)]
  show [_] = _
  unfold assEventLine
  rw [show itemBilingual.start = 0 from rfl, show itemBilingual.stop = 1 from rfl,
    format_ass_zero, format_ass_one]
  decide

/-- C9: the segmenter's output does not depend on the `maxSilence` parameter;
it is accepted and ignored. -/
theorem words_to_sentences_ignores_max_silence (strip : Bool) (words : List Word)
    (maxChars : Nat) (s1 s2 : ℚ) :
    words_to_sentences strip words s1 maxChars =
      words_to_sentences strip words s2 maxChars :=
  rfl

/-- C8: both formatters clamp negative inputs to zero and render the claimed
examples; the sub-second rounding of the Python `round` call is modelled by
`pyRound` (half-to-even over exact rationals). -/
theorem timestamp_formatting_spec :
    (∀ q : ℚ, q < 0 → _format_timestamp q = "00:00:00,000" ∧
      _format_ass_timestamp q = "0:00:00.00") ∧
    _format_timestamp 1.5 = "00:00:01,500" ∧
    _format_timestamp 3661.234 = "01:01:01,234" ∧
    _format_ass_timestamp 1.5 = "0:00:01.50" := by
  refine ⟨fun q hq => ⟨?_, ?_⟩, ?_, ?_, ?_⟩
  · rw [show _format_timestamp q = _format_timestamp 0 by
      simp only [_format_timestamp, if_pos hq, if_neg (lt_irrefl (0 : ℚ))]]
    rw [_format_timestamp_of_round 0 0 (by norm_num)
      (by rw [show ((0 : ℚ) * 1000) = ((0 : ℤ) : ℚ) by norm_num, pyRound_intCast]
          norm_num)]
    decide
  · rw [show _format_ass_timestamp q = _format_ass_timestamp 0 by
      simp only [_format_ass_timestamp, if_pos hq, if_neg (lt_irrefl (0 : ℚ))]]
    exact format_ass_zero
  · rw [_format_timestamp_of_round 1.5 1500 (by norm_num)
      (by rw [show ((1.5 : ℚ) * 1000) = ((1500 : ℤ) : ℚ) by norm_num, pyRound_intCast]
          norm_num)]
    decide
  · rw [_format_timestamp_of_round 3661.234 3661234 (by norm_num)
      (by rw [show ((3661.234 : ℚ) * 1000) = ((3661234 : ℤ) : ℚ) by norm_num,
            pyRound_intCast]
          norm_num)]
    decide
  · rw [_format_ass_timestamp_of_round 1.5 150 (by norm_num)
      (by rw [show ((1.5 : ℚ) * 100) = ((150 : ℤ) : ℚ) by norm_num, pyRound_intCast]
          norm_num)]
    decide

/-- C8 witness: the clamping branch evaluated at `-1`. -/
theorem timestamp_formatting_spec_witness :
    _format_timestamp (-1) = "00:00:00,000" ∧ _format_ass_timestamp (-1) = "0:00:00.00" :=
  timestamp_formatting_spec.1 (-1) (by norm_num)

theorem srtLines_eq_join (b t : Bool) (items : List SubtitleItem) :
    srtLines b t items = (items.map (srtBlock b t)).flatten := by
  induction items with
  | nil => simp [srtLines]
  | cons item rest ih => simp [srtLines, srtBlock, ih]

theorem assEventLines_eq_filter (b t : Bool) (items : List SubtitleItem) :
    assEventLines b t items =
      (items.filter fun it => !(pyStrip (assDisplay b t it)).data.isEmpty).map
        (assEventLine b t) := by
  induction items with
  | nil => simp [assEventLines]
  | cons item rest ih =>
    simp only [assEventLines, List.filter]
    by_cases h : (pyStrip (assDisplay b t item)).data.isEmpty
    · simp [h, ih]
    · simp [h, ih]

theorem srtBlock_length (b t : Bool) (item : SubtitleItem) :
    4 ≤ (srtBlock b t item).length := by
  unfold srtBlock
  cases t
  · cases h : normTranslation item
    · simp
    · cases b <;> simp
  · simp

/-- C10: the ASS serializer emits a dialogue event exactly for the items whose
selected display text does not strip to empty, while the SRT serializer emits
one block — index line, timing line, at least one text line, blank separator —
for every item, including one whose text is empty. -/
theorem serializers_blank_item_handling (items : List SubtitleItem) (b t : Bool) :
    assEventLines b t items =
      ((items.filter fun it => !(pyStrip (assDisplay b t it)).data.isEmpty).map
        (assEventLine b t)) ∧
    srtLines b t items = (items.map (srtBlock b t)).flatten ∧
    ∀ item : SubtitleItem, 4 ≤ (srtBlock b t item).length :=
  ⟨assEventLines_eq_filter b t items, srtLines_eq_join b t items,
   fun item => srtBlock_length b t item⟩

theorem sliceText_false (ws : List Word) : sliceText false ws = pyStrip (joinTexts ws) := by
  unfold sliceText stripTrailingPunctIfEnabled
  split <;> simp

theorem flushUpTo_mid (strip : Bool) (buf : List Word) (i : Nat) (hi : i < buf.length) :
    flushUpTo strip buf i =
      ((if sliceText strip (buf.take (i + 1)) = "" then []
        else
          [{ text := sliceText strip (buf.take (i + 1))
             start := ((buf.take (i + 1)).headD ⟨"", 0, 0⟩).start
             stop := ((buf.take (i + 1)).getLastD ⟨"", 0, 0⟩).stop
             words := buf.take (i + 1) }]),
       buf.drop (i + 1)) := by
  unfold flushUpTo
  have hb : ¬buf.isEmpty := by
    cases buf
    · simp at hi
    · simp
  rw [if_neg hb, if_neg (by omega)]

theorem flushUpTo_last (strip : Bool) (buf : List Word) (h : buf ≠ []) :
    flushUpTo strip buf (buf.length - 1) =
      ((if sliceText strip buf = "" then []
        else
          [{ text := sliceText strip buf
             start := (buf.headD ⟨"", 0, 0⟩).start
             stop := (buf.getLastD ⟨"", 0, 0⟩).stop
             words := buf }]),
       []) := by
  have hpos : 0 < buf.length := List.length_pos.mpr h
  have h1 : buf.length - 1 + 1 = buf.length := Nat.succ_pred_eq_of_pos hpos
  rw [flushUpTo_mid strip buf (buf.length - 1) (by omega)]
  rw [h1, List.take_length, List.drop_length]

theorem lastBreakIdx_lt (l : List Word) (i : Nat) (h : lastBreakIdx l = some i) :
    i < l.length := by
  induction l generalizing i with
  | nil => simp [lastBreakIdx] at h
  | cons w ws ih =>
    simp only [lastBreakIdx] at h
    cases hws : lastBreakIdx ws with
    | some j =>
      rw [hws] at h
      have := ih j hws
      simp at h
      simp only [List.length_cons]
      omega
    | none =>
      rw [hws] at h
      by_cases hw : isBreakableToken w.text
      · simp [hw] at h
        simp [← h]
      · simp [hw] at h

theorem filter_flatten_sublist (p : List Word → Bool) (l : List (List Word)) :
    (l.filter p).flatten.Sublist l.flatten := by
  induction l with
  | nil => simp
  | cons a l ih =>
    by_cases h : p a
    · simpa [h] using List.Sublist.append_left ih a
    · simp only [List.filter, h, List.flatten]
      exact ih.trans (List.sublist_append_right a l.flatten)

theorem sliceFilter_cons (strip : Bool) (x : List Word) (l : List (List Word)) :
    ((x :: l).filter fun sl => !(sliceText strip sl == "")) =
      if sliceText strip x = "" then l.filter fun sl => !(sliceText strip sl == "")
      else x :: (l.filter fun sl => !(sliceText strip sl == "")) := by
  by_cases ht : sliceText strip x = ""
  · simp [List.filter, beq_iff_eq.mpr ht, ht]
  · simp [List.filter, beq_eq_false_iff_ne.mpr ht, ht]

theorem segGo_partition (strip : Bool) (mc : Nat) (rest : List Word) :
    ∀ buf : List Word, ∃ slices : List (List Word),
      slices.flatten = buf ++ rest ∧
      (segGo strip mc buf rest).map Sentence.words =
        slices.filter fun sl => !(sliceText strip sl == "") := by
  induction rest with
  | nil =>
    intro buf
    by_cases hb : buf = []
    · exact ⟨[], by simp [hb, segGo, flushUpTo]⟩
    · refine ⟨[buf], by simp, ?_⟩
      simp only [segGo, flushUpTo_last strip buf hb]
      rw [show ([buf].filter fun sl => !(sliceText strip sl == "")) =
          if sliceText strip buf = "" then [] else [buf] from sliceFilter_cons strip buf []]
      by_cases ht : sliceText strip buf = "" <;> simp [ht]
  | cons w rest' ih =>
    intro buf
    simp only [segGo]
    have hb1 : buf ++ [w] ≠ [] := by simp
    by_cases h1 : isSentenceEndToken w.text
    · -- terminal flush: the whole buffer is one slice
      obtain ⟨slices', hflat, hmap⟩ := ih []
      refine ⟨(buf ++ [w]) :: slices', by simp [hflat], ?_⟩
      rw [if_pos h1, flushUpTo_last strip (buf ++ [w]) hb1, sliceFilter_cons]
      by_cases ht : sliceText strip (buf ++ [w]) = "" <;> simp [ht, hmap]
    · rw [if_neg h1]
      by_cases h2 : (joinTexts (buf ++ [w])).length > mc
      · rw [if_pos h2]
        cases hlb : lastBreakIdx (buf ++ [w]) with
        | some i =>
          have hi : i < (buf ++ [w]).length := lastBreakIdx_lt _ i hlb
          obtain ⟨slices', hflat, hmap⟩ := ih ((buf ++ [w]).drop (i + 1))
          refine ⟨(buf ++ [w]).take (i + 1) :: slices', ?_, ?_⟩
          · simp only [List.flatten, hflat, ← List.append_assoc, List.take_append_drop]
            simp
          · show List.map Sentence.words
                ((flushUpTo strip (buf ++ [w]) i).1 ++
                  segGo strip mc (flushUpTo strip (buf ++ [w]) i).2 rest') = _
            rw [flushUpTo_mid strip (buf ++ [w]) i hi, sliceFilter_cons]
            by_cases ht : sliceText strip ((buf ++ [w]).take (i + 1)) = "" <;>
              simp [ht, hmap]
        | none =>
          obtain ⟨slices', hflat, hmap⟩ := ih []
          refine ⟨(buf ++ [w]) :: slices', by simp [hflat], ?_⟩
          show List.map Sentence.words
              ((flushUpTo strip (buf ++ [w]) ((buf ++ [w]).length - 1)).1 ++
                segGo strip mc (flushUpTo strip (buf ++ [w]) ((buf ++ [w]).length - 1)).2
                  rest') = _
          rw [flushUpTo_last strip (buf ++ [w]) hb1, sliceFilter_cons]
          by_cases ht : sliceText strip (buf ++ [w]) = "" <;> simp [ht, hmap]
      · rw [if_neg h2]
        obtain ⟨slices', hflat, hmap⟩ := ih (buf ++ [w])
        exact ⟨slices', by simp [hflat], by simpa using hmap⟩

/-- C2: the flush slices partition the input word list, and the emitted
sentences are exactly the slices whose joined, stripped text is non-empty (in
input order); in particular the concatenation of the emitted sentences' word
lists is a sublist of the input — no word is duplicated, reordered or
invented, and only words of empty-text slices are dropped. -/
theorem words_to_sentences_partition (maxChars : Nat) (maxSilence : ℚ)
    (words : List Word) :
    ∃ slices : List (List Word),
      slices.flatten = words ∧
      (words_to_sentences false words maxSilence maxChars).map Sentence.words =
        (slices.filter fun sl => !(pyStrip (joinTexts sl) == "")) ∧
      ((words_to_sentences false words maxSilence maxChars).map
        Sentence.words).flatten.Sublist words := by
  by_cases hw : words.isEmpty
  · refine ⟨[], ?_, ?_, ?_⟩ <;>
      simp [words_to_sentences, hw, List.isEmpty_iff.mp hw]
  · obtain ⟨slices, hflat, hmap⟩ := segGo_partition false maxChars words []
    have hmap' : (words_to_sentences false words maxSilence maxChars).map Sentence.words =
        slices.filter fun sl => !(pyStrip (joinTexts sl) == "") := by
      rw [words_to_sentences, if_neg (by simpa using hw)]
      rw [hmap]
      congr 1
      funext sl
      rw [sliceText_false]
    refine ⟨slices, by simpa using hflat, hmap', ?_⟩
    rw [hmap']
    have := filter_flatten_sublist (fun sl => !(pyStrip (joinTexts sl) == "")) slices
    rw [hflat] at this
    simpa using this

theorem lastBreakIdx_concat (l : List Word) (w : Word) :
    lastBreakIdx (l ++ [w]) =
      if isBreakableToken w.text then some l.length else lastBreakIdx l := by
  induction l with
  | nil =>
    by_cases hw : isBreakableToken w.text <;> simp [lastBreakIdx, hw]
  | cons x l ih =>
    by_cases hw : isBreakableToken w.text
    · simp only [List.cons_append, lastBreakIdx, List.append_eq, ih, if_pos hw,
        List.length_cons]
    · simp only [List.cons_append, lastBreakIdx, List.append_eq, ih, if_neg hw]

theorem lastBreakIdx_none_iff (l : List Word) :
    lastBreakIdx l = none ↔ ∀ w ∈ l, isBreakableToken w.text = false := by
  induction l with
  | nil => simp [lastBreakIdx]
  | cons x l ih =>
    constructor
    · intro h w hw
      have hl : lastBreakIdx l = none := by
        cases hl : lastBreakIdx l with
        | some j => rw [lastBreakIdx, hl] at h; exact absurd h (by simp)
        | none => rfl
      rcases List.mem_cons.mp hw with rfl | hw'
      · by_contra hb
        rw [lastBreakIdx, hl] at h
        simp only [Bool.not_eq_false] at hb
        rw [if_pos hb] at h
        exact absurd h (by simp)
      · exact (ih.mp hl) w hw'
    · intro h
      rw [lastBreakIdx, ih.mpr fun w hw => h w (List.mem_cons_of_mem x hw)]
      simp [h x (List.mem_cons_self x l)]

theorem lastBreakIdx_get (l : List Word) (i : Nat) (h : lastBreakIdx l = some i) :
    ∃ w, l[i]? = some w ∧ isBreakableToken w.text = true := by
  induction l generalizing i with
  | nil => simp [lastBreakIdx] at h
  | cons x l ih =>
    simp only [lastBreakIdx] at h
    cases hl : lastBreakIdx l with
    | some j =>
      rw [hl] at h
      simp only [Option.some.injEq] at h
      obtain ⟨w, hw1, hw2⟩ := ih j hl
      exact ⟨w, by simp [← h, hw1], hw2⟩
    | none =>
      rw [hl] at h
      by_cases hx : isBreakableToken x.text
      · simp only [if_pos hx, Option.some.injEq] at h
        exact ⟨x, by simp [← h], hx⟩
      · simp [hx] at h

theorem lastBreakIdx_drop_after (l : List Word) (i : Nat)
    (h : lastBreakIdx l = some i) : lastBreakIdx (l.drop (i + 1)) = none := by
  induction l generalizing i with
  | nil => simp [lastBreakIdx] at h
  | cons x l ih =>
    simp only [lastBreakIdx] at h
    cases hl : lastBreakIdx l with
    | some j =>
      rw [hl] at h
      simp only [Option.some.injEq] at h
      rw [← h]
      simpa using ih j hl
    | none =>
      rw [hl] at h
      by_cases hx : isBreakableToken x.text
      · simp only [if_pos hx, Option.some.injEq] at h
        rw [← h]
        simpa using hl
      · simp [hx] at h

theorem joinWith_append_le (sep : String) (l1 l2 : List String) :
    (joinWith sep l1).length ≤ (joinWith sep (l1 ++ l2)).length := by
  induction l1 with
  | nil => simp [joinWith]
  | cons t l1 ih =>
    cases l1 with
    | nil =>
      cases l2 with
      | nil => simp
      | cons u l2 =>
        simp only [List.nil_append, List.cons_append, joinWith, String.length_append]
        omega
    | cons u l1' =>
      simp only [List.cons_append, List.append_eq, joinWith, String.length_append] at ih ⊢
      omega

theorem joinTexts_take_le (ws : List Word) (n : Nat) :
    (joinTexts (ws.take n)).length ≤ (joinTexts ws).length := by
  have h := joinWith_append_le " " ((ws.take n).map Word.text) ((ws.drop n).map Word.text)
  rw [← List.map_append, List.take_append_drop] at h
  exact h

theorem pyStrip_length_le (s : String) : (pyStrip s).length ≤ s.length := by
  have h1 := (List.dropWhile_sublist (l := s.data) (p := Char.isWhitespace)).length_le
  have h2 := (List.dropWhile_sublist
    (l := (s.data.dropWhile Char.isWhitespace).reverse) (p := Char.isWhitespace)).length_le
  show ((s.data.dropWhile Char.isWhitespace).reverse.dropWhile
      Char.isWhitespace).reverse.length ≤ s.data.length
  simp only [List.length_reverse] at *
  omega

theorem stripTrailGo_length_le_aux (n : Nat) :
    ∀ r : List Char, r.length ≤ n → (stripTrailGo r).length ≤ r.length := by
  induction n with
  | zero =>
    intro r hr
    have : r = [] := List.length_eq_zero.mp (Nat.le_zero.mp hr)
    subst this
    rw [stripTrailGo]
    simp
  | succ n ih =>
    intro r hr
    rw [stripTrailGo]
    have hsub := (List.dropWhile_sublist (l := r) (p := Char.isWhitespace)).length_le
    cases hr1 : r.dropWhile Char.isWhitespace with
    | nil => simp
    | cons c rest =>
      rw [hr1] at hsub
      simp only [List.length_cons] at hsub
      by_cases hc : (breakPunct.contains c && !nonBreakPunct.contains c) = true
      · simp only [hc, if_true]
        have := ih rest (by omega)
        omega
      · simp only [Bool.not_eq_true] at hc
        simp only [hc, Bool.false_eq_true, if_false, List.length_cons]
        omega

theorem stripTrailGo_length_le (r : List Char) : (stripTrailGo r).length ≤ r.length :=
  stripTrailGo_length_le_aux r.length r le_rfl

theorem sliceText_length_le (strip : Bool) (ws : List Word) :
    (sliceText strip ws).length ≤ (joinTexts ws).length := by
  unfold sliceText stripTrailingPunctIfEnabled
  by_cases h0 : pyStrip (joinTexts ws) = ""
  · simp [h0, pyStrip_length_le]
  · rw [if_neg h0]
    cases strip with
    | false => simpa using pyStrip_length_le (joinTexts ws)
    | true =>
      rw [if_pos (by trivial)]
      have h1 : (String.mk (stripTrailGo (pyStrip (joinTexts ws)).data.reverse).reverse).length =
          (stripTrailGo (pyStrip (joinTexts ws)).data.reverse).length := by
        show (stripTrailGo _).reverse.length = _
        simp
      rw [h1]
      have h2 := stripTrailGo_length_le (pyStrip (joinTexts ws)).data.reverse
      simp only [List.length_reverse] at h2
      have h3 : (pyStrip (joinTexts ws)).data.length = (pyStrip (joinTexts ws)).length := rfl
      have h4 := pyStrip_length_le (joinTexts ws)
      omega

theorem endChar_breakable (c : Char) (h : sentenceEndPunct.contains c = true) :
    (breakPunct.contains c && !nonBreakPunct.contains c) = true := by
  simp only [sentenceEndPunct, List.contains_cons, List.contains_nil, Bool.or_false,
    Bool.or_eq_true, beq_iff_eq] at h
  rcases h with rfl | rfl | rfl | rfl | rfl | rfl | rfl | rfl <;> decide

theorem endToken_breakable (t : String) (h : isSentenceEndToken t = true) :
    isBreakableToken t = true := by
  simp only [isSentenceEndToken] at h
  simp only [isBreakableToken]
  by_cases he : (pyStrip t).data.isEmpty
  · simp [he] at h
  · simp only [Bool.not_eq_true] at he
    simp only [he, Bool.false_eq_true, if_false] at h ⊢
    exact endChar_breakable _ h

theorem segGo_bound (strip : Bool) (mc : Nat) (rest : List Word) :
    ∀ buf : List Word,
      ((joinTexts buf).length ≤ mc ∨ lastBreakIdx buf = none) →
      ∀ s ∈ segGo strip mc buf rest,
        s.text.length ≤ mc ∨
        (∃ w, s.words.getLast? = some w ∧ isBreakableToken w.text = true) ∨
        ∀ w ∈ s.words, isBreakableToken w.text = false := by
  induction rest with
  | nil =>
    intro buf hinv s hs
    by_cases hb : buf = []
    · subst hb
      simp [segGo, flushUpTo] at hs
    · rw [segGo, flushUpTo_last strip buf hb] at hs
      by_cases ht : sliceText strip buf = ""
      · simp [ht] at hs
      · simp only [ht, if_false, if_neg ht] at hs
        simp only [List.mem_singleton] at hs
        subst hs
        rcases hinv with hle | hnone
        · left
          exact le_trans (sliceText_length_le strip buf) hle
        · right; right
          intro x hx
          exact (lastBreakIdx_none_iff buf).mp hnone x (by simpa using hx)
  | cons w rest' ih =>
    intro buf hinv s hs
    simp only [segGo] at hs
    by_cases h1 : isSentenceEndToken w.text
    · rw [if_pos h1, flushUpTo_last strip (buf ++ [w]) (by simp)] at hs
      rcases List.mem_append.mp hs with hs1 | hs2
      · by_cases ht : sliceText strip (buf ++ [w]) = ""
        · simp [ht] at hs1
        · simp only [if_neg ht, List.mem_singleton] at hs1
          subst hs1
          right; left
          exact ⟨w, by simp [List.getLast?_concat], endToken_breakable _ h1⟩
      · exact ih [] (Or.inl (by simp [joinTexts, joinWith])) s hs2
    · rw [if_neg h1] at hs
      by_cases h2 : (joinTexts (buf ++ [w])).length > mc
      · rw [if_pos h2] at hs
        rcases hOpt : lastBreakIdx (buf ++ [w]) with _ | i
        · rw [hOpt] at hs
          simp only [] at hs
          rw [flushUpTo_last strip (buf ++ [w]) (by simp)] at hs
          rcases List.mem_append.mp hs with hs1 | hs2
          · by_cases ht : sliceText strip (buf ++ [w]) = ""
            · simp [ht] at hs1
            · simp only [if_neg ht, List.mem_singleton] at hs1
              subst hs1
              right; right
              intro x hx
              exact (lastBreakIdx_none_iff _).mp hOpt x (by simpa using hx)
          · exact ih [] (Or.inl (by simp [joinTexts, joinWith])) s hs2
        · rw [hOpt] at hs
          simp only [] at hs
          have hi : i < (buf ++ [w]).length := lastBreakIdx_lt _ i hOpt
          rw [flushUpTo_mid strip (buf ++ [w]) i hi] at hs
          rcases List.mem_append.mp hs with hs1 | hs2
          · by_cases ht : sliceText strip ((buf ++ [w]).take (i + 1)) = ""
            · simp [ht] at hs1
            · simp only [if_neg ht, List.mem_singleton] at hs1
              subst hs1
              by_cases hilen : i + 1 = (buf ++ [w]).length
              · right; left
                obtain ⟨wi, hget, hbrk⟩ := lastBreakIdx_get _ i hOpt
                refine ⟨wi, ?_, hbrk⟩
                show ((buf ++ [w]).take (i + 1)).getLast? = some wi
                rw [show (buf ++ [w]).take (i + 1) = buf ++ [w] by
                  rw [hilen]; exact List.take_length _]
                rw [List.getLast?_eq_getElem?]
                have hl1 : (buf ++ [w]).length - 1 = i := by omega
                rw [hl1]
                exact hget
              · left
                have hiw : ¬isBreakableToken w.text = true := by
                  intro hbw
                  rw [lastBreakIdx_concat, if_pos hbw] at hOpt
                  simp only [Option.some.injEq] at hOpt
                  apply hilen
                  simp [← hOpt]
                have hlbbuf : lastBreakIdx buf = some i := by
                  rw [lastBreakIdx_concat, if_neg hiw] at hOpt
                  exact hOpt
                have hbufle : (joinTexts buf).length ≤ mc := by
                  rcases hinv with h | hnone
                  · exact h
                  · rw [hnone] at hlbbuf
                    exact absurd hlbbuf (by simp)
                have hle : i + 1 ≤ buf.length := by
                  have h3 := lastBreakIdx_lt buf i hlbbuf
                  omega
                have htake : (buf ++ [w]).take (i + 1) = buf.take (i + 1) :=
                  List.take_append_of_le_length hle
                calc (sliceText strip ((buf ++ [w]).take (i + 1))).length
                    ≤ (joinTexts ((buf ++ [w]).take (i + 1))).length :=
                      sliceText_length_le _ _
                  _ = (joinTexts (buf.take (i + 1))).length := by rw [htake]
                  _ ≤ (joinTexts buf).length := joinTexts_take_le _ _
                  _ ≤ mc := hbufle
          · exact ih _ (Or.inr (lastBreakIdx_drop_after _ i hOpt)) s hs2
      · rw [if_neg h2] at hs
        exact ih (buf ++ [w]) (Or.inl (by omega)) s (by simpa using hs)

/-- C6 (amended): an emitted sentence can exceed `maxChars` only when its
buffer was flushed whole — at a final word ending in breakable punctuation
(which includes every sentence-terminal flush) or, with no breakable position
in the buffer at all, by the hard-cut fallback; every sentence cut at a
breakable position strictly inside the buffer stays within `maxChars`. -/
theorem words_to_sentences_length_bound (strip : Bool) (maxChars : Nat)
    (maxSilence : ℚ) (words : List Word) (s : Sentence)
    (hs : s ∈ words_to_sentences strip words maxSilence maxChars) :
    s.text.length ≤ maxChars ∨
    (∃ w, s.words.getLast? = some w ∧ isBreakableToken w.text = true) ∨
    ∀ w ∈ s.words, isBreakableToken w.text = false := by
  rw [words_to_sentences] at hs
  by_cases hw : words.isEmpty
  · simp [hw] at hs
  · rw [if_neg hw] at hs
    exact segGo_bound strip maxChars words []
      (Or.inl (by simp [joinTexts, joinWith])) s hs

/-- C6 counterexample: with `maxChars = 5`, the input `["aaaa", "bbbb."]` is
flushed by the sentence-terminal period into the single sentence
`"aaaa bbbb."` of raw length 10 > 5, even though its buffer contained a
breakable punctuation position (the final word); so exceeding `maxChars` is
not confined to buffers without breakable punctuation. -/
theorem words_to_sentences_overlong_with_breakable :
    (words_to_sentences false wordsRunOnStop 1 5).map Sentence.text = ["aaaa bbbb."] ∧
    5 < ("aaaa bbbb." : String).length ∧
    ((words_to_sentences false wordsRunOnStop 1 5).headD
      ⟨"", 0, 0, []⟩).words.map Word.text = ["aaaa", "bbbb."] ∧
    isBreakableToken "bbbb." = true := by
  decide

/-- C6 witness: the amended bound applied to the single emitted sentence of a
short plain input. -/
theorem words_to_sentences_length_bound_witness :
    ("aaaa" : String).length ≤ 10 ∨
    (∃ w, ([⟨"aaaa", 0, 1⟩] : List Word).getLast? = some w ∧
      isBreakableToken w.text = true) ∨
    ∀ w ∈ ([⟨"aaaa", 0, 1⟩] : List Word), isBreakableToken w.text = false :=
  words_to_sentences_length_bound false 10 1 wordsPlain
    ⟨"aaaa", 0, 1, [⟨"aaaa", 0, 1⟩]⟩ (by decide)

theorem googleGroupsGo_flatten (limit : Nat) (items : List SubtitleItem) :
    ∀ (idx : Nat) (cur : List Nat) (curLen : Nat),
      (googleGroupsGo limit items idx cur curLen).flatten =
        cur ++ List.range' idx items.length := by
  induction items with
  | nil =>
    intro idx cur curLen
    by_cases hc : cur.isEmpty
    · simp [googleGroupsGo, hc, List.isEmpty_iff.mp hc]
    · simp [googleGroupsGo, hc]
  | cons item rest ih =>
    intro idx cur curLen
    simp only [googleGroupsGo]
    by_cases hsplit : ¬cur.isEmpty = true ∧ curLen + item.text.length > limit
    · rw [if_pos hsplit]
      simp only [List.flatten_cons, ih, List.length_cons, List.range'_succ idx rest.length 1]
      simp
    · rw [if_neg hsplit]
      simp only [ih, List.length_cons, List.range'_succ idx rest.length 1]
      simp

theorem googleGroups_flatten (limit : Nat) (items : List SubtitleItem) :
    (googleGroups limit items).flatten = List.range items.length := by
  rw [googleGroups, googleGroupsGo_flatten, List.range_eq_range']
  simp

theorem processGroup_fst (o : String → Except String String)
    (items : List SubtitleItem) (g : List Nat) : (processGroup o items g).1 = g := by
  unfold processGroup
  cases translateText o (joinWith "\n" (g.map fun i => (items.getD i ⟨0, 0, 0, "", none⟩).text)) with
  | error e => rfl
  | ok block =>
    simp only []
    split <;> rfl

theorem processGroup_snd_length (o : String → Except String String)
    (items : List SubtitleItem) (g : List Nat) :
    (processGroup o items g).2.length = g.length := by
  unfold processGroup
  cases translateText o (joinWith "\n" (g.map fun i => (items.getD i ⟨0, 0, 0, "", none⟩).text)) with
  | error e => simp
  | ok block =>
    simp only []
    by_cases h : (splitNl block).length ≠ g.length
    · rw [if_pos h]; simp
    · rw [if_neg h]
      simp only [List.length_map]
      omega

theorem foldl_set_length (ps : List (Nat × String)) :
    ∀ acc : List String, (ps.foldl (fun a p => a.set p.1 p.2) acc).length = acc.length := by
  induction ps with
  | nil => intro acc; rfl
  | cons q ps ih => intro acc; rw [List.foldl_cons, ih, List.length_set]

theorem foldl_set_not_mem (ps : List (Nat × String)) :
    ∀ (acc : List String) (i : Nat), (∀ p ∈ ps, p.1 ≠ i) →
      (ps.foldl (fun a p => a.set p.1 p.2) acc)[i]? = acc[i]? := by
  induction ps with
  | nil => intro acc i _; rfl
  | cons q ps ih =>
    intro acc i h
    rw [List.foldl_cons, ih _ i fun p hp => h p (List.mem_cons_of_mem q hp),
      List.getElem?_set_ne (h q (List.mem_cons_self q ps))]

theorem foldl_set_mem (ps : List (Nat × String)) :
    ∀ (acc : List String) (i : Nat) (v : String), (ps.map Prod.fst).Nodup →
      (i, v) ∈ ps → i < acc.length →
      (ps.foldl (fun a p => a.set p.1 p.2) acc)[i]? = some v := by
  induction ps with
  | nil => intro acc i v _ h _; simp at h
  | cons q ps ih =>
    intro acc i v hnd hm hlen
    simp only [List.map_cons, List.nodup_cons] at hnd
    rw [List.foldl_cons]
    rcases List.mem_cons.mp hm with rfl | hm'
    · rw [foldl_set_not_mem ps _ i ?_]
      · rw [List.getElem?_set_self']
        simp [List.getElem?_eq_getElem hlen]
      · intro p hp hpi
        exact hnd.1 (List.mem_map.mpr ⟨p, hp, hpi⟩)
    · exact ih _ i v hnd.2 hm' (by rwa [List.length_set])

theorem writeGroup_fold_lookup (o : String → Except String String)
    (items : List SubtitleItem) (gs : List (List Nat)) :
    ∀ acc : List String, gs.flatten.Nodup → (∀ j ∈ gs.flatten, j < acc.length) →
      ∀ g ∈ gs, ∀ i v, (i, v) ∈ g.zip (processGroup o items g).2 →
        (gs.foldl (fun a g' => writeGroup a (processGroup o items g')) acc)[i]? =
          some v := by
  induction gs with
  | nil => intro acc _ _ g hg; simp at hg
  | cons g0 gs ih =>
    intro acc hnd hlen g hg i v hm
    have hig : i ∈ g := List.of_mem_zip hm |>.1
    rw [List.foldl_cons]
    have hnd' : gs.flatten.Nodup := by
      simp only [List.flatten_cons, List.nodup_append] at hnd
      exact hnd.2.1
    have hdisj : ∀ j ∈ g0, j ∉ gs.flatten := by
      simp only [List.flatten_cons, List.nodup_append] at hnd
      exact fun j hj hj2 => hnd.2.2 hj hj2
    have hwlen : (writeGroup acc (processGroup o items g0)).length = acc.length := by
      rw [writeGroup, foldl_set_length]
    rcases List.mem_cons.mp hg with rfl | hg'
    · -- the group itself: later groups do not touch its indices
      have huntouched : ∀ gs' : List (List Nat), (∀ g' ∈ gs', i ∉ g') →
          ∀ acc' : List String,
          (gs'.foldl (fun a g' => writeGroup a (processGroup o items g')) acc')[i]? =
            acc'[i]? := by
        intro gs'
        induction gs' with
        | nil => intro _ acc'; rfl
        | cons g1 gs1 ih1 =>
          intro hnot acc'
          rw [List.foldl_cons, ih1 fun g' hg' => hnot g' (List.mem_cons_of_mem g1 hg')]
          rw [writeGroup, processGroup_fst]
          exact foldl_set_not_mem _ _ i fun p hp => by
            intro hpe
            exact hnot g1 (List.mem_cons_self g1 gs1)
              (hpe ▸ (List.of_mem_zip hp).1)
      rw [huntouched gs (fun g' hg' hig' => hdisj i hig (List.mem_flatten.mpr ⟨g', hg', hig'⟩)) _]
      rw [writeGroup, processGroup_fst]
      refine foldl_set_mem _ _ i v ?_ hm
        (hlen i (by rw [List.flatten_cons]; exact List.mem_append.mpr (Or.inl hig)))
      rw [List.map_fst_zip _ _ (by rw [processGroup_snd_length])]
      exact (List.sublist_flatten_of_mem (List.mem_cons_self g gs)).nodup hnd
    · refine ih _ hnd' ?_ g hg' i v hm
      intro j hj
      rw [hwlen]
      exact hlen j (by rw [List.flatten_cons]; exact List.mem_append.mpr (Or.inr hj))

theorem google_result_lookup (o : String → Except String String) (limit : Nat)
    (items : List SubtitleItem) (g : List Nat) (hg : g ∈ googleGroups limit items)
    (i : Nat) (v : String) (hiv : (i, v) ∈ g.zip (processGroup o items g).2) :
    (google_translate_subtitles o limit items)[i]? = some v := by
  have hne : ¬items.isEmpty = true := by
    intro he
    rw [List.isEmpty_iff.mp he] at hg
    simp [googleGroups, googleGroupsGo] at hg
  simp only [google_translate_subtitles, if_neg hne]
  refine writeGroup_fold_lookup o items (googleGroups limit items) _ ?_ ?_ g hg i v hiv
  · rw [googleGroups_flatten]
    exact List.nodup_range items.length
  · intro j hj
    rw [googleGroups_flatten] at hj
    simpa using List.mem_range.mp hj

theorem processGroup_congr (o o' : String → Except String String)
    (items : List SubtitleItem) (g : List Nat)
    (h : translateText o' (joinWith "\n" (g.map fun i =>
        (items.getD i ⟨0, 0, 0, "", none⟩).text)) =
      translateText o (joinWith "\n" (g.map fun i =>
        (items.getD i ⟨0, 0, 0, "", none⟩).text))) :
    processGroup o' items g = processGroup o items g := by
  unfold processGroup
  rw [h]

/-- C4: when the remote call for a group succeeds but splits into the wrong
number of lines, every item of that group keeps its original text in the
result, the operation still returns normally (the embedding is a total
function), and the entry of every item outside the group is determined by its
own group's call alone — two oracles that agree on all other groups' requests
give identical entries there. -/
theorem google_group_mismatch_contained (o : String → Except String String)
    (limit : Nat) (items : List SubtitleItem) (g : List Nat)
    (hg : g ∈ googleGroups limit items) (block : String)
    (hok : translateText o (joinWith "\n" (g.map fun i =>
      (items.getD i ⟨0, 0, 0, "", none⟩).text)) = Except.ok block)
    (hmis : (splitNl block).length ≠ g.length) :
    (∀ i ∈ g, (google_translate_subtitles o limit items)[i]? =
      some (items.getD i ⟨0, 0, 0, "", none⟩).text) ∧
    ∀ o' : String → Except String String,
      (∀ g' ∈ googleGroups limit items, g' ≠ g →
        translateText o' (joinWith "\n" (g'.map fun i =>
          (items.getD i ⟨0, 0, 0, "", none⟩).text)) =
        translateText o (joinWith "\n" (g'.map fun i =>
          (items.getD i ⟨0, 0, 0, "", none⟩).text))) →
      ∀ j, j < items.length → j ∉ g →
        (google_translate_subtitles o' limit items)[j]? =
          (google_translate_subtitles o limit items)[j]? := by
  have hpg : (processGroup o items g).2 =
      g.map fun i => (items.getD i ⟨0, 0, 0, "", none⟩).text := by
    unfold processGroup
    rw [hok]
    simp only [if_pos hmis]
  constructor
  · intro i hig
    refine google_result_lookup o limit items g hg i _ ?_
    rw [hpg]
    have hz := List.zip_map' id (fun i => (items.getD i ⟨0, 0, 0, "", none⟩).text) g
    simp only [List.map_id] at hz
    rw [hz]
    exact List.mem_map.mpr ⟨i, hig, rfl⟩
  · intro o' hagree j hjlen hjg
    have hjfl : j ∈ (googleGroups limit items).flatten := by
      rw [googleGroups_flatten]
      exact List.mem_range.mpr hjlen
    obtain ⟨g2, hg2, hjg2⟩ := List.mem_flatten.mp hjfl
    have hg2ne : g2 ≠ g := fun he => hjg (he ▸ hjg2)
    have hcongr : processGroup o' items g2 = processGroup o items g2 :=
      processGroup_congr o o' items g2 (hagree g2 hg2 hg2ne)
    obtain ⟨k, hk, hkj⟩ := List.mem_iff_getElem.mp hjg2
    have hklen : k < (processGroup o items g2).2.length := by
      rw [processGroup_snd_length]
      exact hk
    have hzlen : k < (g2.zip (processGroup o items g2).2).length := by
      rw [List.length_zip, processGroup_snd_length]
      omega
    have hzip : (j, (processGroup o items g2).2.get ⟨k, hklen⟩) ∈
        g2.zip (processGroup o items g2).2 := by
      have h1 : (g2.zip (processGroup o items g2).2).get ⟨k, hzlen⟩ =
          (j, (processGroup o items g2).2.get ⟨k, hklen⟩) := by
        rw [List.get_eq_getElem, List.getElem_zip]
        rw [← hkj]
        rfl
      rw [← h1]
      exact List.get_mem _ _ hzlen
    rw [google_result_lookup o limit items g2 hg2 j _ hzip,
      google_result_lookup o' limit items g2 hg2 j _ (by rw [hcongr]; exact hzip)]

/-- C4 witness: with a budget of 2 the two items form two singleton groups;
the first group's response has two lines (a mismatch for a group of one), so
item 0 keeps its original text `"aa"`. -/
theorem google_group_mismatch_contained_witness :
    (google_translate_subtitles googleOracleMismatch 2 itemsTwoGroups)[0]? =
      some "aa" :=
  (google_group_mismatch_contained googleOracleMismatch 2 itemsTwoGroups [0]
    (by decide) "x\ny" rfl (by decide)).1 0 (by decide)

theorem google_translate_length (o : String → Except String String) (limit : Nat)
    (items : List SubtitleItem) :
    (google_translate_subtitles o limit items).length = items.length := by
  simp only [google_translate_subtitles]
  by_cases hi : items.isEmpty
  · simp [hi]
  · rw [if_neg hi]
    have hfold : ∀ (gs : List (List Nat)) (acc : List String),
        (gs.foldl (fun acc g => writeGroup acc (processGroup o items g)) acc).length =
          acc.length := by
      intro gs
      induction gs with
      | nil => intro acc; rfl
      | cons g gs ih =>
        intro acc
        rw [List.foldl_cons, ih, writeGroup, foldl_set_length]
    rw [hfold]
    simp

theorem m2m_translate_length (o : List String → String → String → List String)
    (items : List SubtitleItem) (src tgt : String) :
    (m2m_translate_subtitles o items src tgt).length = items.length := by
  simp only [m2m_translate_subtitles]
  by_cases he : (items.map SubtitleItem.text).isEmpty
  · rw [if_pos he]
    have : items = [] := by
      cases items
      · rfl
      · simp at he
    simp [this]
  · rw [if_neg he]
    by_cases hgt :
        ((o (items.map SubtitleItem.text) (_normalize_lang src)
          (_normalize_lang tgt)).map pyStrip).length > items.length
    · rw [if_pos hgt]
      simp only [List.length_take]
      omega
    · rw [if_neg hgt]
      simp only [List.length_append, List.length_replicate]
      omega

theorem llmRun_ok_length (o : LLMOracle) (tl trl : Nat) (items : List SubtitleItem)
    (src tgt : String) (r : List String)
    (hr : (llmRun o tl trl items src tgt).1 = Except.ok r) :
    r.length = items.length := by
  by_cases hi : items.isEmpty
  · rw [llmRun, if_pos hi] at hr
    simp only [] at hr
    rw [List.isEmpty_iff.mp hi, ← Except.ok.inj hr]
    rfl
  · rw [llmRun, if_neg hi] at hr
    split at hr
    · simp at hr
    · split at hr
      · simp at hr
      · simp only [] at hr
        rw [← Except.ok.inj hr]
        simp

/-- C3 counterexample: an empty-text item that shares its request group with
a non-empty item takes whatever line the remote response assigns it — here
`"X"` — so an empty text does not necessarily translate to the empty string. -/
theorem google_empty_text_not_empty_translation :
    (itemsEmptyFirst.map SubtitleItem.text = ["", "a"]) ∧
    google_translate_subtitles googleOracleTwoLines 1000 itemsEmptyFirst = ["X", "Y"] ∧
    ("X" : String) ≠ "" := by
  refine ⟨by decide, ?_, by decide⟩
  rfl

/-- C3 (amended): for every oracle, each backend's result is positionally
aligned with its input — the remote and local backends always return a list
of exactly the input length (they never raise: the embeddings are total, all
remote per-group failures being absorbed), the contextual backend returns a
list of the input length whenever it returns successfully, and the empty item
list yields the empty result in all three.  The entry an empty-text item
receives, however, is whatever the backend response assigns it. -/
theorem translate_backends_contract (oG : String → Except String String)
    (limit : Nat) (oM : List String → String → String → List String)
    (oL : LLMOracle) (tl trl : Nat) (items : List SubtitleItem)
    (src tgt : String) (r : List String)
    (hr : (llmRun oL tl trl items src tgt).1 = Except.ok r) :
    (google_translate_subtitles oG limit items).length = items.length ∧
    google_translate_subtitles oG limit [] = [] ∧
    (m2m_translate_subtitles oM items src tgt).length = items.length ∧
    m2m_translate_subtitles oM [] src tgt = [] ∧
    (llmRun oL tl trl [] src tgt).1 = Except.ok [] ∧
    r.length = items.length :=
  ⟨google_translate_length oG limit items, rfl,
   m2m_translate_length oM items src tgt, rfl, rfl,
   llmRun_ok_length oL tl trl items src tgt r hr⟩

/-- C3 witness: the contract applied to a one-item list with the all-ok
contextual oracle, whose run returns `[""]`. -/
theorem translate_backends_contract_witness :
    (google_translate_subtitles googleOracleTwoLines 1000 itemsShort).length =
      itemsShort.length ∧
    google_translate_subtitles googleOracleTwoLines 1000 [] = [] ∧
    (m2m_translate_subtitles m2mOracleEcho itemsShort "auto" "zh").length =
      itemsShort.length ∧
    m2m_translate_subtitles m2mOracleEcho [] "auto" "zh" = [] ∧
    (llmRun llmOracleOk 10 10 [] "auto" "zh").1 = Except.ok [] ∧
    ([""] : List String).length = itemsShort.length :=
  translate_backends_contract googleOracleTwoLines 1000 m2mOracleEcho llmOracleOk
    10 10 itemsShort "auto" "zh" [""] rfl

theorem packGo_flatten (limit : Nat) :
    ∀ (rest cur : List SubtitleItem) (curLen : Nat),
      (packGo limit rest cur curLen).flatten = cur ++ rest := by
  intro rest
  induction rest with
  | nil =>
    intro cur curLen
    by_cases hc : cur.isEmpty
    · simp [packGo, hc, List.isEmpty_iff.mp hc]
    · simp [packGo, hc]
  | cons item rest ih =>
    intro cur curLen
    simp only [packGo]
    by_cases hsplit : ¬cur.isEmpty = true ∧ curLen + item.text.length > limit
    · rw [if_pos hsplit]
      simp [ih]
    · rw [if_neg hsplit]
      simp [ih]

theorem packGo_ne_nil (limit : Nat) :
    ∀ (rest cur : List SubtitleItem) (curLen : Nat), cur ≠ [] →
      ∀ g ∈ packGo limit rest cur curLen, g ≠ [] := by
  intro rest
  induction rest with
  | nil =>
    intro cur curLen hcur g hg
    rw [packGo, if_neg (by simpa using hcur)] at hg
    simpa using (List.mem_singleton.mp hg) ▸ hcur
  | cons item rest ih =>
    intro cur curLen hcur g hg
    rw [packGo] at hg
    by_cases hsplit : ¬cur.isEmpty = true ∧ curLen + item.text.length > limit
    · rw [if_pos hsplit] at hg
      rcases List.mem_cons.mp hg with rfl | hg'
      · exact hcur
      · exact ih [item] item.text.length (by simp) g hg'
    · rw [if_neg hsplit] at hg
      exact ih (cur ++ [item]) (curLen + item.text.length) (by simp) g hg

theorem packGo_top_ne_nil (limit : Nat) (items : List SubtitleItem) :
    ∀ g ∈ packGo limit items [] 0, g ≠ [] := by
  cases items with
  | nil =>
    intro g hg
    rw [packGo] at hg
    simp at hg
  | cons item rest =>
    intro g hg
    rw [packGo, if_neg (by simp)] at hg
    exact packGo_ne_nil limit rest ([] ++ [item]) (0 + item.text.length) (by simp) g hg

theorem length_le_flatten (L : List (List SubtitleItem)) (h : ∀ g ∈ L, g ≠ []) :
    L.length ≤ L.flatten.length := by
  induction L with
  | nil => simp
  | cons g L ih =>
    simp only [List.length_cons, List.flatten_cons, List.length_append]
    have hg : 1 ≤ g.length := by
      have hne := h g (List.mem_cons_self g L)
      cases g
      · simp at hne
      · simp
    have hih := ih fun g' hg' => h g' (List.mem_cons_of_mem g hg')
    omega

theorem summarizeChunksGo_ok_log (o : LLMOracle) (src tgt : String) :
    ∀ (chunks : List (List SubtitleItem)) (idx : Nat) (res : List (Nat × String))
      (log : List CallKind),
      summarizeChunksGo o src tgt idx chunks = (Except.ok res, log) →
      log = List.replicate chunks.length CallKind.chunkSummary := by
  intro chunks
  induction chunks with
  | nil =>
    intro idx res log h
    rw [summarizeChunksGo] at h
    simp only [Prod.mk.injEq] at h
    simp [← h.2]
  | cons c rest ih =>
    intro idx res log h
    rw [summarizeChunksGo] at h
    cases hc : o.chunkSummary src tgt idx c with
    | error e =>
      rw [hc] at h
      simp at h
    | ok summary =>
      rw [hc] at h
      rcases hrec : summarizeChunksGo o src tgt (idx + 1) rest with ⟨res2, log2⟩
      simp only [hrec] at h
      simp only [Prod.mk.injEq] at h
      cases res2 with
      | error e => simp [Except.map] at h
      | ok l =>
        rw [← h.2, List.length_cons, List.replicate_succ]
        exact congrArg _ (ih (idx + 1) l log2 hrec)

theorem translateBatchesGo_log (o : LLMOracle) (src tgt prompt : String) :
    ∀ (batches : List (List SubtitleItem)) (d : Nat → Option String),
      ∀ k ∈ (translateBatchesGo o src tgt prompt d batches).2,
        k = CallKind.translateBatch := by
  intro batches
  induction batches with
  | nil =>
    intro d k hk
    rw [translateBatchesGo] at hk
    simp at hk
  | cons b rest ih =>
    intro d k hk
    rw [translateBatchesGo] at hk
    cases hb : o.translateBatch src tgt prompt b with
    | error e =>
      rw [hb] at hk
      simpa using List.mem_singleton.mp hk
    | ok entries =>
      rw [hb] at hk
      rcases hrec : translateBatchesGo o src tgt prompt (applyEntries d entries) rest
        with ⟨res2, log2⟩
      simp only [hrec] at hk
      rcases List.mem_cons.mp hk with rfl | hk'
      · rfl
      · have := ih (applyEntries d entries) k
        rw [hrec] at this
        exact this hk'

theorem llmPlanPhase_short_log (o : LLMOracle) (tl : Nat) (items : List SubtitleItem)
    (src tgt : String) (hle : totalTextLen items ≤ tl) :
    (llmPlanPhase o tl items src tgt).2 = [CallKind.planShort] := by
  rw [llmPlanPhase, if_pos hle]
  cases o.planShort src tgt items <;> rfl

theorem llmPlanPhase_long_log (o : LLMOracle) (tl : Nat) (items : List SubtitleItem)
    (src tgt : String) (hgt : ¬totalTextLen items ≤ tl) (vp : String × String)
    (log1 : List CallKind) (hok : llmPlanPhase o tl items src tgt = (Except.ok vp, log1)) :
    log1 = List.replicate (packGo tl items [] 0).length CallKind.chunkSummary ++
      [CallKind.globalPlan] := by
  rw [llmPlanPhase, if_neg hgt] at hok
  rcases hsum : summarizeChunksGo o src tgt 1 (packGo tl items [] 0) with ⟨res, log⟩
  rw [hsum] at hok
  cases res with
  | error e => simp at hok
  | ok summaries =>
    simp only [] at hok
    cases hg : o.globalPlan src tgt summaries with
    | error e =>
      rw [hg] at hok
      simp at hok
    | ok vp2 =>
      rw [hg] at hok
      simp only [Prod.mk.injEq] at hok
      rw [← hok.2, summarizeChunksGo_ok_log o src tgt _ 1 summaries log hsum]

theorem llmRun_log (o : LLMOracle) (tl trl : Nat) (items : List SubtitleItem)
    (src tgt : String) (hi : ¬items.isEmpty = true) :
    ∃ log2 : List CallKind,
      (llmRun o tl trl items src tgt).2 = (llmPlanPhase o tl items src tgt).2 ++ log2 ∧
      ∀ k ∈ log2, k = CallKind.translateBatch := by
  rw [llmRun, if_neg hi]
  rcases hp : llmPlanPhase o tl items src tgt with ⟨res1, log1⟩
  cases res1 with
  | error e => exact ⟨[], by simp, by simp⟩
  | ok vp =>
    rcases hb : translateBatchesGo o src tgt vp.2 (fun _ => none)
      (packGo trl items [] 0) with ⟨res2, log2⟩
    have hall : ∀ k ∈ log2, k = CallKind.translateBatch := by
      intro k hk
      have := translateBatchesGo_log o src tgt vp.2 (packGo trl items [] 0)
        (fun _ => none) k
      rw [hb] at this
      exact this hk
    cases res2 with
    | error e => exact ⟨log2, by simp [hb], hall⟩
    | ok d => exact ⟨log2, by simp [hb], hall⟩

theorem count_replicate_kind (n : Nat) (a b : CallKind) :
    (List.replicate n b).count a = if a = b then n else 0 := by
  induction n with
  | zero => simp
  | succ n ih =>
    by_cases h : a = b <;>
      simp [List.replicate_succ, List.count_cons, ih, h]

/-- C5 counterexample: three six-character items with chunk budget 10 trigger
three chunk-summary calls, while `ceil(totalLength / chunkBudget) =
ceil(18 / 10) = 2` — the greedy chunking never splits an item, so the claimed
formula undercounts. -/
theorem llm_chunk_count_not_ceil :
    (llmRun llmOracleOk 10 10 itemsChunky "auto" "zh").2.count
      CallKind.chunkSummary = 3 ∧
    totalTextLen itemsChunky = 18 ∧ (18 + 10 - 1) / 10 = 2 ∧ (3 : Nat) ≠ 2 := by
  refine ⟨?_, by decide, by decide, by decide⟩
  rfl

/-- C5 (amended): on a successful run over a non-empty item list, a total
source length within the text limit issues exactly one short-text planning
call and no chunk or global calls; a longer input issues exactly one
chunk-summary call per greedy budget-bounded chunk — between 1 and the number
of items, but not `ceil(total/budget)` in general — plus exactly one
global-plan call. -/
theorem llm_planning_call_counts (o : LLMOracle) (tl trl : Nat)
    (items : List SubtitleItem) (src tgt : String) (r : List String)
    (hne : items ≠ []) (hr : (llmRun o tl trl items src tgt).1 = Except.ok r) :
    (totalTextLen items ≤ tl →
      (llmRun o tl trl items src tgt).2.count CallKind.planShort = 1 ∧
      (llmRun o tl trl items src tgt).2.count CallKind.chunkSummary = 0 ∧
      (llmRun o tl trl items src tgt).2.count CallKind.globalPlan = 0) ∧
    (tl < totalTextLen items →
      (llmRun o tl trl items src tgt).2.count CallKind.planShort = 0 ∧
      (llmRun o tl trl items src tgt).2.count CallKind.chunkSummary =
        (packGo tl items [] 0).length ∧
      (llmRun o tl trl items src tgt).2.count CallKind.globalPlan = 1 ∧
      1 ≤ (packGo tl items [] 0).length ∧
      (packGo tl items [] 0).length ≤ items.length) := by
  have hi : ¬items.isEmpty = true := by
    cases items
    · exact absurd rfl hne
    · simp
  obtain ⟨log2, hsplit, hall⟩ := llmRun_log o tl trl items src tgt hi
  have hzero : ∀ κ : CallKind, κ ≠ CallKind.translateBatch → log2.count κ = 0 :=
    fun κ hκ => List.count_eq_zero.mpr fun hmem => hκ (hall κ hmem)
  constructor
  · intro hle
    rw [hsplit, llmPlanPhase_short_log o tl items src tgt hle]
    refine ⟨?_, ?_, ?_⟩ <;>
      rw [List.count_append, hzero _ (by decide)] <;> rfl
  · intro hgt
    have hok : ∃ (vp : String × String) (log1 : List CallKind),
        llmPlanPhase o tl items src tgt = (Except.ok vp, log1) := by
      rcases hp : llmPlanPhase o tl items src tgt with ⟨res1, log1⟩
      cases res1 with
      | error e =>
        rw [llmRun, if_neg hi, hp] at hr
        simp at hr
      | ok vp => exact ⟨vp, log1, rfl⟩
    obtain ⟨vp, log1, hp⟩ := hok
    have hlog1 := llmPlanPhase_long_log o tl items src tgt (by omega) vp log1 hp
    have hchunks1 : 1 ≤ (packGo tl items [] 0).length := by
      rcases hpk : packGo tl items [] 0 with _ | ⟨g, gs⟩
      · have := packGo_flatten tl items [] 0
        rw [hpk] at this
        simp at this
        exact absurd this hne
      · simp
    have hchunksN : (packGo tl items [] 0).length ≤ items.length := by
      have h1 := length_le_flatten (packGo tl items [] 0) (packGo_top_ne_nil tl items)
      rw [packGo_flatten tl items [] 0] at h1
      simpa using h1
    rw [hsplit, hp]
    simp only []
    rw [hlog1]
    refine ⟨?_, ?_, ?_, hchunks1, hchunksN⟩ <;>
      rw [List.count_append, List.count_append, hzero _ (by decide),
        count_replicate_kind] <;>
      simp

/-- C5 witness: a single two-character item with text limit 10 takes the
short-text path: one planning call, no chunk or global calls. -/
theorem llm_planning_call_counts_witness :
    (llmRun llmOracleOk 10 10 itemsShort "auto" "zh").2.count CallKind.planShort = 1 ∧
    (llmRun llmOracleOk 10 10 itemsShort "auto" "zh").2.count CallKind.chunkSummary = 0 ∧
    (llmRun llmOracleOk 10 10 itemsShort "auto" "zh").2.count CallKind.globalPlan = 0 :=
  (llm_planning_call_counts llmOracleOk 10 10 itemsShort "auto" "zh" [""]
    (by decide) rfl).1 (by decide)
